import Mathlib

/-!
Verification development for the SecureEVoting repository (files `EA.py`,
`voter.py`, `collector.py`).

The Python sources are shallowly embedded below:

* pure computations of `voter.py` (`compute_voting_vector`, `compute_numbers`,
  the secret-ballot blinding of `vote_process`) become Lean functions on
  `Nat`/`Int`;
* the location-share probe loop of `VoterClient.vote_process` (lines 122-136)
  becomes an explicit fuel-bounded loop over the registry list;
* the collector (`collector.py`) becomes a record `CollectorState` plus pure
  transition functions; wire messages (`conn.recv().decode().strip()`) are
  modelled as `List Char`, with Python `str.split(",")`, `"," in data`,
  `int(...)` (whitespace stripping, sign, PEP 515 underscore grouping; exact
  on ASCII text), `str(...)` and negative list indexing modelled character-
  and index-faithfully;
* Python's `bin(n)[2:]` rendering used by `CollectorServer.tally_votes` is
  modelled by `binChars` (for a negative argument `bin` yields `'-0b' + digits`,
  so `[2:]` leaves a `'b'` character; every character is tracked only through
  the one observation the source makes of it, namely whether it equals `'1'`);
* `random.randint` results are inputs of the transition functions.
-/

namespace SecureEVoting

/-! ### voter.py: vote encoding -/

/-- `VoterClient.compute_voting_vector` (voter.py lines 69-73):
`voting_vector = [0]*size; voting_vector[(location_share-1)*total_candidates + vote] = 1`.
(The write is in bounds whenever `1 ≤ location_share ≤ total_voters` and
`vote < total_candidates`; out of bounds Python would raise, and `List.set`
is then a no-op, which no claim exercises.) -/
def compute_voting_vector (size total_candidates location_share vote : Nat) : List Nat :=
  (List.replicate size 0).set ((location_share - 1) * total_candidates + vote) 1

/-- Loop body of `VoterClient.compute_numbers` (voter.py lines 75-84): scan for
the first entry equal to `1`; at index `i` return `(2^i, 2^(size-i-1))`. -/
def computeNumbersAux (size : Nat) : Nat → List Nat → Nat × Nat
  | _, [] => (0, 0)
  | i, v :: rest =>
    if v = 1 then (2 ^ i, 2 ^ (size - i - 1)) else computeNumbersAux size (i + 1) rest

/-- `VoterClient.compute_numbers` (voter.py lines 75-84). -/
def compute_numbers (size : Nat) (voting_vector : List Nat) : Nat × Nat :=
  computeNumbersAux size 0 voting_vector

/-- The blinding step of `VoterClient.vote_process` (voter.py lines 148-150):
`secret_number_k = number_k + random_shares_collector1[k-1] + random_shares_collector2[k-1]`. -/
def secret_ballot (number r1 r2 : Int × Int) : Int × Int :=
  (number.1 + r1.1 + r2.1, number.2 + r1.2 + r2.2)

/-! ### voter.py: location-share allocation (the `LocationShareAllocator` of the spec) -/

/-- One probe increment of `VoterClient.vote_process` (voter.py lines 129-131):
`computed_share = (computed_share + 1) % total_voters; if computed_share == 0:
computed_share = total_voters`. -/
def next_computed_share (total_voters cur : Nat) : Nat :=
  if (cur + 1) % total_voters = 0 then total_voters else (cur + 1) % total_voters

/-- The `while computed_share in assigned_shares` loop of
`VoterClient.vote_process` (voter.py lines 128-131), with explicit fuel: with
fuel `f` it performs at most `f` membership probes, returning `none` if every
probed value was taken. -/
def probe_loop (total_voters : Nat) (assigned_shares : List Nat) : Nat → Nat → Option Nat
  | 0, _ => none
  | fuel + 1, cur =>
    if cur ∈ assigned_shares then
      probe_loop total_voters assigned_shares fuel (next_computed_share total_voters cur)
    else some cur

/-- One full `commit` of the location-share allocator (voter.py lines 127-136):
probe from the proposed value (fuel `total_voters` suffices, cf. claim C8) and
append the found value to the registry. -/
def commit (total_voters : Nat) (assigned_shares : List Nat) (proposed : Nat) :
    Option (List Nat) :=
  (probe_loop total_voters assigned_shares total_voters proposed).map
    (fun v => assigned_shares ++ [v])

/-- Sequential composition of `commit` calls, one per voter, threading the
shared registry (`assigned_shares.json`). -/
def run_commits (total_voters : Nat) : List Nat → List Nat → Option (List Nat)
  | assigned_shares, [] => some assigned_shares
  | assigned_shares, p :: ps =>
    match commit total_voters assigned_shares p with
    | some reg => run_commits total_voters reg ps
    | none => none

/-! ### collector.py: binary rendering used by `tally_votes` -/

/-- Little-endian binary digits of `n` (fuel-bounded so that the definition is
structural; `natBitsLE` instantiates the fuel with `n` itself, which always
suffices). `true` models the character `'1'`. -/
def natBitsLEAux : Nat → Nat → List Bool
  | 0, _ => []
  | fuel + 1, n =>
    if n = 0 then [] else decide (n % 2 = 1) :: natBitsLEAux fuel (n / 2)

/-- Little-endian binary digits of `n`, empty for `0`. -/
def natBitsLE (n : Nat) : List Bool := natBitsLEAux n n

/-- Python `bin(n)[2:]` (collector.py line 101), each character recorded only
through the observation `char == '1'` made by the source. `bin(0) = '0b0'`
leaves `"0"`; for `n < 0`, `bin(n) = '-0b' + digits(|n|)` and `[2:]` leaves
`'b' + digits(|n|)`, whose leading `'b'` is not `'1'`, hence `false`. -/
def binChars (n : Int) : List Bool :=
  if n < 0 then false :: (natBitsLE (-n).toNat).reverse
  else if n = 0 then [false]
  else (natBitsLE n.toNat).reverse

/-- Python `str.zfill` as applied in collector.py line 101: left-pad with `'0'`
characters up to the target length (no-op when already long enough). -/
def zfill (len : Nat) (l : List Bool) : List Bool :=
  List.replicate (len - l.length) false ++ l

/-- Python `range(0, stop, step)` for `step > 0` (collector.py line 108). -/
def pyRangeStep (stop step : Nat) : List Nat :=
  (List.range ((stop + step - 1) / step)).map (· * step)

/-- `vote_splits` of `CollectorServer.tally_votes` (collector.py line 108):
`[binary_representation[j:j+candidate_count] for j in range(0, binary_length,
candidate_count)]`; a Python slice clamps at the end of the string exactly as
`drop`/`take` do. -/
def vote_splits (candidate_count binary_length : Nat) (bits : List Bool) : List (List Bool) :=
  (pyRangeStep binary_length candidate_count).map (fun j => (bits.drop j).take candidate_count)

/-- Per-component body of `CollectorServer.tally_votes` (collector.py lines
99-118) for component index `i` of `final_result`: render in binary, zero-pad
to `binary_length`, reverse for the first component, split into
`candidate_count`-sized chunks, and count per intra-chunk offset how many
chunks carry a `'1'` there.  The count vector is indexed like `candidates`;
the source keys a dict by `candidates[idx]`, which agrees with indexing by
`idx` since candidate names are unique (`ElectionConfig` invariant, EA.py). -/
def tallyComponent (total_voters : Nat) (candidates : List String) (i : Nat) (number : Int) :
    List Nat :=
  let candidate_count := candidates.length
  let binary_length := total_voters * candidate_count
  let padded := zfill binary_length (binChars number)
  let oriented := if i = 0 then padded.reverse else padded
  let splits := vote_splits candidate_count binary_length oriented
  (List.range candidate_count).map (fun idx => splits.countP (fun s => s.getD idx false))

/-- `CollectorServer.tally_votes` (collector.py lines 90-118): one per-candidate
count vector per component of `final_result`, in order.  Each vector is printed;
nothing is compared or raised. -/
def tally_votes (total_voters : Nat) (candidates : List String) (final_result : List Int) :
    List (List Nat) :=
  final_result.enum.map (fun p => tallyComponent total_voters candidates p.1 p.2)

/-! ### Wire-message primitives (Python `str` operations on the decoded text) -/

/-- Python `data.split(sep)` for a one-character separator: always at least one
(possibly empty) piece. -/
def splitChars (sep : Char) : List Char → List (List Char)
  | [] => [[]]
  | c :: rest =>
    match splitChars sep rest with
    | [] => [[]]
    | piece :: pieces =>
      if c = sep then [] :: piece :: pieces else (c :: piece) :: pieces

/-- The ASCII characters Python `int()` skips as surrounding whitespace around
a decimal literal: codes 9-13 and 32 (checked against CPython; the
codes 28-31 that `str.isspace` also accepts are rejected by `int()`). -/
def isPySpace (c : Char) : Bool :=
  c = ' ' || c = '\t' || c = '\n' || c = '\x0b' || c = '\x0c' || c = '\r'

/-- Strip leading and trailing `int()`-whitespace. -/
def stripChars (l : List Char) : List Char :=
  ((l.dropWhile isPySpace).reverse.dropWhile isPySpace).reverse

/-- Continuation of a decimal literal after its first digit: further digits,
with single underscores allowed only between two digits (PEP 515: `1_0` is
legal, `_1`, `1_` and `1__0` are not). -/
def digitsTail : List Char → Bool
  | [] => true
  | ['_'] => false
  | '_' :: c :: rest => c.isDigit && digitsTail rest
  | c :: rest => c.isDigit && digitsTail rest

/-- A nonempty digit string with PEP 515 underscore grouping. -/
def digitsOK : List Char → Bool
  | [] => false
  | c :: rest => c.isDigit && digitsTail rest

/-- Value of a digit string, skipping grouping underscores. -/
def digitsValue : Nat → List Char → Nat
  | acc, [] => acc
  | acc, '_' :: rest => digitsValue acc rest
  | acc, c :: rest => digitsValue (acc * 10 + (c.toNat - 48)) rest

/-- Python `int(data)`: strip surrounding whitespace, optional single sign,
then a nonempty digit string with underscore grouping; anything else raises
`ValueError`, modelled as `none`.  This is exact for ASCII text (verified
exhaustively against CPython over short ASCII strings); the one divergence is
non-ASCII input, where `int()` additionally accepts Unicode `Nd` digits and
Unicode spaces that this model rejects — theorems that rely on the `none`
(rejecting) side therefore carry an explicit ASCII hypothesis, while the
`some` side is sound unconditionally (every accepted character is ASCII). -/
def pyInt (l : List Char) : Option Int :=
  match stripChars l with
  | '-' :: rest => if digitsOK rest then some (-(digitsValue 0 rest : Int)) else none
  | '+' :: rest => if digitsOK rest then some ((digitsValue 0 rest : Int)) else none
  | t => if digitsOK t then some ((digitsValue 0 t : Int)) else none

/-- Decimal digits of a natural number (fuel-bounded structural recursion;
fuel `n + 1` always suffices). -/
def natToCharsAux : Nat → Nat → List Char
  | 0, _ => []
  | fuel + 1, n =>
    if n < 10 then [Char.ofNat (48 + n)]
    else natToCharsAux fuel (n / 10) ++ [Char.ofNat (48 + n % 10)]

/-- Python `str(n)` for a natural number. -/
def natToChars (n : Nat) : List Char := natToCharsAux (n + 1) n

/-- Python `str(i)` for an integer. -/
def intToChars (i : Int) : List Char :=
  if i < 0 then '-' :: natToChars i.natAbs else natToChars i.toNat

/-- The tag of an inter-collector frame, `"AGGREGATE"`. -/
def aggregateTag : List Char := ['A', 'G', 'G', 'R', 'E', 'G', 'A', 'T', 'E']

/-- The acknowledgment token `"ACK"` (collector.py line 130). -/
def ackMessage : List Char := ['A', 'C', 'K']

/-- Python list indexing `l[i]` for an `int` index: nonnegative indices are
0-based from the front, negative indices count from the back, out-of-range
raises (`none`). -/
def pyIndex (l : List Int) (i : Int) : Option Int :=
  if 0 ≤ i then l.get? i.toNat
  else if 0 ≤ i + l.length then l.get? (i + l.length).toNat
  else none

/-! ### collector.py: state and handlers -/

/-- The mutable fields of a `CollectorServer` instance (collector.py lines
9-24) that the protocol logic reads and writes. -/
structure CollectorState where
  received_ballots : List (Int × Int)
  random_shares : List (Int × Int)
  secret_ballot_aggregate : Int × Int
  random_share_aggregate : Int × Int
  peer_random_share_aggregate : Int × Int
  location_shares : List Int
  total_voters : Nat
  candidates : List String
deriving DecidableEq

/-- `[sum(x) for x in zip(*pairs)]` on a list of 2-tuples: the componentwise
sum (`(0, 0)` for the empty list, where the Python expression would instead
yield `[]`; callers guard the empty case, see `compute_aggregates`). -/
def sumPairs (l : List (Int × Int)) : Int × Int :=
  ((l.map Prod.fst).sum, (l.map Prod.snd).sum)

/-- `CollectorServer.compute_aggregates` (collector.py lines 182-197): each
aggregate field is overwritten with the componentwise sum of its list, except
that an empty list only logs and leaves the field as it was. -/
def compute_aggregates (s : CollectorState) : CollectorState :=
  { s with
    secret_ballot_aggregate :=
      if s.received_ballots.isEmpty then s.secret_ballot_aggregate
      else sumPairs s.received_ballots
    random_share_aggregate :=
      if s.random_shares.isEmpty then s.random_share_aggregate
      else sumPairs s.random_shares }

/-- The ballot parse of `CollectorServer.handle_voter_message` (collector.py
line 126): `n1, n2 = map(int, data.split(","))` succeeds exactly when the split
has two fields, both integers; otherwise `ValueError` (`none`). -/
def parse_ballot (data : List Char) : Option (Int × Int) :=
  match (splitChars ',' data).map pyInt with
  | [some n1, some n2] => some (n1, n2)
  | _ => none

/-- The peer-frame parse of `CollectorServer.handle_peer_message` (collector.py
lines 156-157): `_, p1, p2 = data.split(",")` then `int` on both values;
exactly three fields with integer second and third, otherwise `ValueError`. -/
def parse_aggregate (data : List Char) : Option (Int × Int) :=
  match splitChars ',' data with
  | [_, a1, a2] =>
    match pyInt a1, pyInt a2 with
    | some x, some y => some (x, y)
    | _, _ => none
  | _ => none

/-- `final_result` as computed in `CollectorServer.handle_peer_message`
(collector.py lines 164-167). -/
def final_result (s : CollectorState) : List Int :=
  [s.secret_ballot_aggregate.1 - s.random_share_aggregate.1 -
     s.peer_random_share_aggregate.1,
   s.secret_ballot_aggregate.2 - s.random_share_aggregate.2 -
     s.peer_random_share_aggregate.2]

/-- Observable outcome of handling one inbound connection: the state after the
handler, the bytes sent back on the connection (if any), and the tally output
printed (if the handler tallied).  A dropped/logged connection is `reply =
none`. -/
structure HandleResult where
  state : CollectorState
  reply : Option (List Char)
  tally_output : Option (List (List Nat))
deriving DecidableEq

/-- `CollectorServer.handle_voter_message` (collector.py lines 120-147).
`r` is the pair drawn by `generate_random_shares` (`random.randint`), an input
of the model.  Any `ValueError`/`IndexError` is caught by the handler's
`except`, which only logs: state unchanged, nothing sent. -/
def handle_voter_message (s : CollectorState) (data : List Char) (r : Int × Int) :
    HandleResult :=
  if data.contains ',' then
    match parse_ballot data with
    | some n =>
      ⟨{ s with received_ballots := s.received_ballots ++ [n] }, some ackMessage, none⟩
    | none => ⟨s, none, none⟩
  else
    match pyInt data with
    | none => ⟨s, none, none⟩
    | some voter_id =>
      match pyIndex s.location_shares (voter_id - 1) with
      | none => ⟨s, none, none⟩
      | some ls =>
        ⟨{ s with random_shares := s.random_shares ++ [r] },
         some (intToChars ls ++ ',' :: intToChars r.1 ++ ',' :: intToChars r.2), none⟩

/-- `CollectorServer.handle_peer_message` (collector.py lines 150-180): on a
well-formed `AGGREGATE` frame, store the peer aggregate, recompute this
collector's aggregates, compute `final_result` and tally it; on a parse
failure the `except` only logs. -/
def handle_peer_message (s : CollectorState) (data : List Char) : HandleResult :=
  if aggregateTag.isPrefixOf data then
    match parse_aggregate data with
    | some p =>
      let s2 := compute_aggregates { s with peer_random_share_aggregate := p }
      ⟨s2, none, some (tally_votes s2.total_voters s2.candidates (final_result s2))⟩
    | none => ⟨s, none, none⟩
  else ⟨s, none, none⟩

/-- `CollectorServer.handle_voter` (collector.py lines 75-88): the single
dispatch point for every inbound connection — voter-facing and peer-facing
alike (`accept_peer_connection` also routes through it, line 232) — branching
on message content only. -/
def handle_voter (s : CollectorState) (data : List Char) (r : Int × Int) : HandleResult :=
  if aggregateTag.isPrefixOf data then handle_peer_message s data
  else handle_voter_message s data r

/-! ### collector.py: the post-accept run, instrumented with a write trace -/

/-- Ghost events recording each assignment to an aggregate field and each
tally, for the temporal claim about write-once aggregates. -/
inductive RunEvent where
  | write_ballot_aggregate
  | write_share_aggregate
  | write_peer_aggregate
  | tally
deriving DecidableEq

/-- `compute_aggregates` together with the list of aggregate-field assignments
it executes (an empty list is logged, not written, collector.py lines 185-197). -/
def compute_aggregates_traced (s : CollectorState) : CollectorState × List RunEvent :=
  (compute_aggregates s,
    (if s.received_ballots.isEmpty then [] else [RunEvent.write_ballot_aggregate]) ++
      (if s.random_shares.isEmpty then [] else [RunEvent.write_share_aggregate]))

/-- `handle_peer_message` with the same write trace (the `AGGREGATE` branch
assigns the peer aggregate, calls `compute_aggregates`, then tallies). -/
def handle_peer_message_traced (s : CollectorState) (data : List Char) :
    CollectorState × List RunEvent :=
  if aggregateTag.isPrefixOf data then
    match parse_aggregate data with
    | some p =>
      let t := compute_aggregates_traced { s with peer_random_share_aggregate := p }
      (t.1, RunEvent.write_peer_aggregate :: t.2 ++ [RunEvent.tally])
    | none => (s, [])
  else (s, [])

/-- The post-accept phase of `CollectorServer.start_server` (collector.py lines
249-264) in either role: once the operator closes the accept loop the collector
runs `compute_aggregates` (line 255), and the peer exchange then delivers one
`AGGREGATE` frame which is handled by `handle_peer_message` (lines 259/264 via
`accept_peer_connection` and `handle_voter`). -/
def collector_run (s : CollectorState) (peer_data : List Char) :
    CollectorState × List RunEvent :=
  let t1 := compute_aggregates_traced s
  let t2 := handle_peer_message_traced t1.1 peer_data
  (t2.1, t1.2 ++ t2.2)

/-! ### Helper lemmas: vote encoding (claim C2) -/

theorem computeNumbersAux_spec (size : Nat) :
    ∀ (k i : Nat) (rest : List Nat),
      computeNumbersAux size i (List.replicate k 0 ++ 1 :: rest)
        = (2 ^ (i + k), 2 ^ (size - (i + k) - 1)) := by
  intro k
  induction k with
  | zero => intro i rest; simp [computeNumbersAux]
  | succ k ih =>
    intro i rest
    have : List.replicate (k + 1) 0 ++ 1 :: rest = 0 :: (List.replicate k 0 ++ 1 :: rest) := by
      simp [List.replicate_succ]
    rw [this]
    show computeNumbersAux size i (0 :: (List.replicate k 0 ++ 1 :: rest)) = _
    rw [computeNumbersAux]
    simp only [if_neg (by omega : ¬ (0 : Nat) = 1)]
    rw [ih (i + 1) rest]
    have h1 : i + 1 + k = i + (k + 1) := by omega
    rw [h1]

theorem compute_voting_vector_eq (size C loc vote : Nat)
    (h : (loc - 1) * C + vote < size) :
    compute_voting_vector size C loc vote
      = List.replicate ((loc - 1) * C + vote) 0 ++
          1 :: List.replicate (size - ((loc - 1) * C + vote) - 1) 0 := by
  have h2 : min ((loc - 1) * C + vote) size = (loc - 1) * C + vote :=
    Nat.min_eq_left (le_of_lt h)
  have h3 : size - ((loc - 1) * C + vote + 1) = size - ((loc - 1) * C + vote) - 1 := by
    omega
  unfold compute_voting_vector
  rw [List.set_eq_take_append_cons_drop, if_pos (by simpa using h),
    List.take_replicate, List.drop_replicate, h2, h3]

/-- Claim C2: for a voter at location `L ∈ [1, voterCount]` choosing candidate
index `c < C`, the voting vector has exactly one set bit, at
`pos = (L-1)·C + c`, and the encoded ballot is `(2^pos, 2^(N-1-pos))` with
`N = voterCount · C`. -/
theorem encoded_ballot_one_hot (total_voters total_candidates location_share vote : Nat)
    (hloc1 : 1 ≤ location_share) (hloc2 : location_share ≤ total_voters)
    (hvote : vote < total_candidates) :
    (compute_voting_vector (total_voters * total_candidates) total_candidates
        location_share vote).count 1 = 1 ∧
    (compute_voting_vector (total_voters * total_candidates) total_candidates
        location_share vote).getD ((location_share - 1) * total_candidates + vote) 0 = 1 ∧
    compute_numbers (total_voters * total_candidates)
        (compute_voting_vector (total_voters * total_candidates) total_candidates
          location_share vote)
      = (2 ^ ((location_share - 1) * total_candidates + vote),
         2 ^ (total_voters * total_candidates - 1 -
                ((location_share - 1) * total_candidates + vote))) := by
  have hmul : (location_share - 1) * total_candidates ≤ (total_voters - 1) * total_candidates :=
    Nat.mul_le_mul_right _ (by omega)
  have hmul2 : (total_voters - 1) * total_candidates + total_candidates
      = total_voters * total_candidates := by
    rw [Nat.sub_one_mul]
    have : total_candidates ≤ total_voters * total_candidates :=
      Nat.le_mul_of_pos_left _ (by omega)
    omega
  have hpos : (location_share - 1) * total_candidates + vote
      < total_voters * total_candidates := by omega
  rw [compute_voting_vector_eq _ _ _ _ hpos]
  refine ⟨?_, ?_, ?_⟩
  · simp [List.count_append, List.count_replicate, List.count_cons]
  · rw [List.getD_eq_getElem _ _ (by simp)]
    simp [List.getElem_append]
  · unfold compute_numbers
    rw [computeNumbersAux_spec]
    simp only [Nat.zero_add]
    have h4 : total_voters * total_candidates -
          ((location_share - 1) * total_candidates + vote) - 1
        = total_voters * total_candidates - 1 -
            ((location_share - 1) * total_candidates + vote) := by
      omega
    rw [h4]

/-! ### Helper lemmas: aggregation linearity (claim C1) -/

theorem sumPairs_perm {l l' : List (Int × Int)} (h : l.Perm l') : sumPairs l = sumPairs l' := by
  unfold sumPairs
  rw [(h.map Prod.fst).sum_eq, (h.map Prod.snd).sum_eq]

theorem sumPairs_secret_ballots (voters : List ((Int × Int) × (Int × Int) × (Int × Int))) :
    sumPairs (voters.map (fun v => secret_ballot v.1 v.2.1 v.2.2))
      = ((voters.map (fun v => v.1.1)).sum + (voters.map (fun v => v.2.1.1)).sum +
           (voters.map (fun v => v.2.2.1)).sum,
         (voters.map (fun v => v.1.2)).sum + (voters.map (fun v => v.2.1.2)).sum +
           (voters.map (fun v => v.2.2.2)).sum) := by
  induction voters with
  | nil => simp [sumPairs]
  | cons v vs ih =>
    simp only [List.map_cons, sumPairs, List.sum_cons, secret_ballot] at ih ⊢
    have h1 := congrArg Prod.fst ih
    have h2 := congrArg Prod.snd ih
    simp only at h1 h2
    rw [Prod.mk.injEq]
    refine ⟨?_, ?_⟩ <;> simp only [h1, h2] <;> ring

theorem sumPairs_fst (l : List (Int × Int)) : (sumPairs l).1 = (l.map Prod.fst).sum := rfl

theorem sumPairs_snd (l : List (Int × Int)) : (sumPairs l).2 = (l.map Prod.snd).sum := rfl

theorem compute_aggregates_ballot_eq (s : CollectorState)
    (h : s.secret_ballot_aggregate = (0, 0)) :
    (compute_aggregates s).secret_ballot_aggregate = sumPairs s.received_ballots := by
  unfold compute_aggregates
  by_cases he : s.received_ballots.isEmpty
  · rw [List.isEmpty_iff] at he
    simp [he, h, sumPairs]
  · simp [he]

theorem compute_aggregates_share_eq (s : CollectorState)
    (h : s.random_share_aggregate = (0, 0)) :
    (compute_aggregates s).random_share_aggregate = sumPairs s.random_shares := by
  unfold compute_aggregates
  by_cases he : s.random_shares.isEmpty
  · rw [List.isEmpty_iff] at he
    simp [he, h, sumPairs]
  · simp [he]

/-- Claim C1: summing any set of secret ballots at a collector and subtracting
that collector's own share aggregate and the peer's share aggregate recovers
exactly the componentwise sum of the voters' encoded ballots, independent of
the number of voters and of the order in which ballots and shares were
appended (each voter `v` contributes encoded pair `v.1`, shares `v.2.1` from
this collector and `v.2.2` from the peer). -/
theorem aggregate_linearity
    (voters : List ((Int × Int) × (Int × Int) × (Int × Int)))
    (ballots own_shares peer_shares : List (Int × Int))
    (ls : List Int) (V : Nat) (cands : List String)
    (hb : ballots.Perm (voters.map (fun v => secret_ballot v.1 v.2.1 v.2.2)))
    (ho : own_shares.Perm (voters.map (fun v => v.2.1)))
    (hp : peer_shares.Perm (voters.map (fun v => v.2.2))) :
    final_result (compute_aggregates
        ⟨ballots, own_shares, (0, 0), (0, 0), sumPairs peer_shares, ls, V, cands⟩)
      = [(voters.map (fun v => v.1.1)).sum, (voters.map (fun v => v.1.2)).sum] := by
  set st : CollectorState :=
    ⟨ballots, own_shares, (0, 0), (0, 0), sumPairs peer_shares, ls, V, cands⟩ with hst
  have hb' : (compute_aggregates st).secret_ballot_aggregate
      = sumPairs (voters.map (fun v => secret_ballot v.1 v.2.1 v.2.2)) := by
    rw [compute_aggregates_ballot_eq st rfl, sumPairs_perm hb]
  have ho' : (compute_aggregates st).random_share_aggregate
      = sumPairs (voters.map (fun v => v.2.1)) := by
    rw [compute_aggregates_share_eq st rfl, sumPairs_perm ho]
  have hpeer : (compute_aggregates st).peer_random_share_aggregate
      = sumPairs (voters.map (fun v => v.2.2)) := by
    show st.peer_random_share_aggregate = _
    rw [hst, sumPairs_perm hp]
  have hy1 : (sumPairs (voters.map (fun v => v.2.1))).1
      = (voters.map (fun v => v.2.1.1)).sum := by
    rw [sumPairs_fst, List.map_map]; rfl
  have hy2 : (sumPairs (voters.map (fun v => v.2.1))).2
      = (voters.map (fun v => v.2.1.2)).sum := by
    rw [sumPairs_snd, List.map_map]; rfl
  have hz1 : (sumPairs (voters.map (fun v => v.2.2))).1
      = (voters.map (fun v => v.2.2.1)).sum := by
    rw [sumPairs_fst, List.map_map]; rfl
  have hz2 : (sumPairs (voters.map (fun v => v.2.2))).2
      = (voters.map (fun v => v.2.2.2)).sum := by
    rw [sumPairs_snd, List.map_map]; rfl
  unfold final_result
  rw [hb', ho', hpeer, sumPairs_secret_ballots, hy1, hy2, hz1, hz2]
  simp only [List.cons.injEq, and_true]
  refine ⟨by ring, by ring⟩

/-- Witness for C1: two voters, ballots and shares received in reversed order. -/
theorem aggregate_linearity_witness :
    final_result (compute_aggregates
        ⟨[secret_ballot (8, 1) (3, 4) (5, 6), secret_ballot (1, 8) (1, 1) (2, 2)],
          [(1, 1), (3, 4)], (0, 0), (0, 0), sumPairs [(2, 2), (5, 6)], [], 2, ["R", "D"]⟩)
      = [9, 9] :=
  aggregate_linearity [((1, 8), (1, 1), (2, 2)), ((8, 1), (3, 4), (5, 6))]
    _ _ _ [] 2 ["R", "D"]
    (by decide) (by decide) (by decide)

/-- Witness for C2 at the spec's example: voter at location 2 of 2 choosing
candidate index 1 of 2, hence position 3 in a 4-bit vector. -/
theorem encoded_ballot_one_hot_witness :
    (compute_voting_vector 4 2 2 1).count 1 = 1 ∧
    (compute_voting_vector 4 2 2 1).getD 3 0 = 1 ∧
    compute_numbers 4 (compute_voting_vector 4 2 2 1) = (8, 1) :=
  encoded_ballot_one_hot 2 2 2 1 (by decide) (by decide) (by decide)

/-! ### Claim C6: malformed ballots are dropped without state change -/

/-- Claim C6: an inbound ballot message (it contains a comma, so the handler
takes the ballot branch) that is malformed — wrong number of comma-separated
fields, or an ASCII field that Python `int()` rejects — is dropped: the
handler logs, appends nothing to `received_ballots`, leaves the whole
collector state unchanged, and sends no acknowledgment.  The wrong-field-count
case needs no restriction (the tuple unpacking raises regardless of content);
the non-numeric case is stated for ASCII fields, where `pyInt` is exactly
Python `int()` — including its acceptance of surrounding whitespace and
underscore grouping, so a field such as `" 2"` or `"1_0"` is numeric, not
malformed. -/
theorem malformed_ballot_dropped (s : CollectorState) (data : List Char) (r : Int × Int)
    (hc : data.contains ',' = true)
    (hmal : (splitChars ',' data).length ≠ 2 ∨
      ∃ f ∈ splitChars ',' data, (∀ c ∈ f, c.toNat < 128) ∧ pyInt f = none) :
    handle_voter_message s data r = ⟨s, none, none⟩ := by
  have hnone : parse_ballot data = none := by
    unfold parse_ballot
    rcases hsp : splitChars ',' data with _ | ⟨a, tl⟩
    · simp
    rcases tl with _ | ⟨b, tl2⟩
    · simp
    rcases tl2 with _ | ⟨c, tl3⟩
    · rw [hsp] at hmal
      rcases hmal with hlen | ⟨f, hf, _, hfn⟩
      · simp at hlen
      · simp only [List.mem_cons, List.not_mem_nil, or_false] at hf
        rcases hf with rfl | rfl
        · cases hpb : pyInt b <;> simp [hfn, hpb]
        · cases hpa : pyInt a <;> simp [hpa, hfn]
    · cases hpa : pyInt a <;> cases hpb : pyInt b <;> simp [hpa, hpb]
  have hc' : ',' ∈ data := by simpa using hc
  simp [handle_voter_message, hc', hnone]

/-- Witness for C6: the three-field message `"1,2,3"` is dropped with the
state unchanged and no reply. -/
theorem malformed_ballot_dropped_witness :
    handle_voter_message ⟨[], [], (0, 0), (0, 0), (0, 0), [], 1, ["R"]⟩ ("1,2,3".data) (0, 0)
      = ⟨⟨[], [], (0, 0), (0, 0), (0, 0), [], 1, ["R"]⟩, none, none⟩ :=
  malformed_ballot_dropped _ _ _ (by decide) (Or.inl (by decide))

/-! ### Claim C9: share requests and Python negative indexing -/

/-- Claim C9 (implicit): for a share request (no comma) carrying voter
identifier `vid`, the lookup `location_shares[vid - 1]` succeeds for every
`vid ∈ [1 - voterCount, voterCount]` (the list has exactly `voterCount`
entries, one per voter, generated at startup): identifiers `≤ 0` in that range
are answered with another voter's value via Python negative indexing, namely
entry `vid - 1 + voterCount`; only identifiers outside the range make the
lookup raise, upon which the connection is logged and dropped with the state
unchanged. -/
theorem share_request_lookup (s : CollectorState) (data : List Char) (vid : Int)
    (r : Int × Int)
    (hnc : data.contains ',' = false)
    (hid : pyInt data = some vid)
    (hlen : s.location_shares.length = s.total_voters) :
    (1 - (s.total_voters : Int) ≤ vid → vid ≤ (s.total_voters : Int) →
      ∃ ls, pyIndex s.location_shares (vid - 1) = some ls ∧
        handle_voter_message s data r =
          ⟨{ s with random_shares := s.random_shares ++ [r] },
           some (intToChars ls ++ ',' :: intToChars r.1 ++ ',' :: intToChars r.2), none⟩) ∧
    (1 - (s.total_voters : Int) ≤ vid → vid ≤ 0 →
      pyIndex s.location_shares (vid - 1)
        = s.location_shares.get? (vid - 1 + (s.location_shares.length : Int)).toNat) ∧
    ((vid < 1 - (s.total_voters : Int) ∨ (s.total_voters : Int) < vid) →
      handle_voter_message s data r = ⟨s, none, none⟩) := by
  have hcast : (s.location_shares.length : Int) = (s.total_voters : Int) := by
    exact_mod_cast congrArg Nat.cast hlen
  refine ⟨?_, ?_, ?_⟩
  · intro h1 h2
    have hsome : ∃ ls, pyIndex s.location_shares (vid - 1) = some ls := by
      unfold pyIndex
      by_cases h0 : (0 : Int) ≤ vid - 1
      · rw [if_pos h0]
        have hlt : (vid - 1).toNat < s.location_shares.length := by omega
        exact ⟨_, List.get?_eq_get hlt⟩
      · rw [if_neg h0, if_pos (by omega)]
        have hlt : (vid - 1 + (s.location_shares.length : Int)).toNat
            < s.location_shares.length := by omega
        exact ⟨_, List.get?_eq_get hlt⟩
    obtain ⟨ls, hls⟩ := hsome
    have hnc' : ',' ∉ data := by simpa using hnc
    exact ⟨ls, hls, by simp [handle_voter_message, hnc', hid, hls]⟩
  · intro h1 h2
    unfold pyIndex
    rw [if_neg (by omega), if_pos (by omega)]
  · intro h
    have hnone : pyIndex s.location_shares (vid - 1) = none := by
      rcases h with h | h
      · unfold pyIndex
        rw [if_neg (by omega), if_neg (by omega)]
      · unfold pyIndex
        rw [if_pos (by omega)]
        exact List.get?_eq_none.mpr (by omega)
    have hnc' : ',' ∉ data := by simpa using hnc
    simp [handle_voter_message, hnc', hid, hnone]

/-- Witness for C9: with two location shares `[10, 20]`, the request `"0"`
(voter identifier `0`) is answered — via negative indexing it serves entry
`1`, voter 2's value — and the random-share pair is appended. -/
theorem share_request_lookup_witness :
    ∃ ls, pyIndex ([10, 20] : List Int) ((0 : Int) - 1) = some ls ∧
      handle_voter_message ⟨[], [], (0, 0), (0, 0), (0, 0), [10, 20], 2, ["R"]⟩
          ("0".data) (3, 4)
        = ⟨⟨[], [(3, 4)], (0, 0), (0, 0), (0, 0), [10, 20], 2, ["R"]⟩,
           some (intToChars ls ++ ',' :: intToChars (3 : Int) ++ ',' :: intToChars (4 : Int)),
           none⟩ :=
  (share_request_lookup ⟨[], [], (0, 0), (0, 0), (0, 0), [10, 20], 2, ["R"]⟩
      ("0".data) 0 (3, 4) (by decide) (by decide) (by decide)).1
    (by decide) (by decide)

/-! ### Claim C5 (corrected): the two decoded count vectors are never compared -/

/-- Counterexample for C5 as stated: at `finalResult = (1, 1)` with two voters
and candidates `["R", "D"]`, the decode produces the two per-candidate count
vectors `[1, 0]` and `[0, 1]`, which differ — yet `tally_votes` returns (and
the source merely prints) both, with no comparison and no fault: divergence is
not surfaced. -/
theorem tally_divergence_not_surfaced_cex :
    tally_votes 2 ["R", "D"] [1, 1] = [[1, 0], [0, 1]] ∧ ([1, 0] : List Nat) ≠ [0, 1] := by
  constructor
  · decide
  · decide

/-- Amended C5: the tally decode totally computes one per-candidate count
vector (of length `|candidates|`) for each component of `finalResult` and
outputs them all; it never compares the two vectors, so — as the
counterexample shows — divergent vectors are emitted as ordinary output with
no fault raised. -/
theorem tally_votes_shape (total_voters : Nat) (cands : List String) (final : List Int) :
    (tally_votes total_voters cands final).length = final.length ∧
    ∀ v ∈ tally_votes total_voters cands final, v.length = cands.length := by
  constructor
  · simp [tally_votes]
  · intro v hv
    simp only [tally_votes, List.mem_map] at hv
    obtain ⟨p, _, rfl⟩ := hv
    simp [tallyComponent]

/-- Witness for the amended C5 at the divergent input of the counterexample:
each of the two emitted vectors has one entry per candidate. -/
theorem tally_votes_shape_witness :
    ([1, 0] : List Nat).length = (["R", "D"] : List String).length :=
  (tally_votes_shape 2 ["R", "D"] [1, 1]).2 [1, 0] (by decide)

/-! ### Claim C7 (corrected): aggregates are computed twice per run -/

/-- Counterexample for C7 as stated: in a completed run (accept phase closed,
then one well-formed peer `AGGREGATE` frame) with one ballot and one share
received, each of the two aggregate fields is written twice — once by
`start_server` after the accept loop stops and once more inside
`handle_peer_message` — not exactly once. -/
theorem aggregates_recomputed_cex :
    ((collector_run ⟨[(5, 6)], [(1, 1)], (0, 0), (0, 0), (0, 0), [], 2, ["R", "D"]⟩
        ("AGGREGATE,1,2".data)).2.count RunEvent.write_ballot_aggregate = 2) ∧
    ((collector_run ⟨[(5, 6)], [(1, 1)], (0, 0), (0, 0), (0, 0), [], 2, ["R", "D"]⟩
        ("AGGREGATE,1,2".data)).2.count RunEvent.write_share_aggregate = 2) ∧
    (2 : Nat) ≠ 1 := by
  refine ⟨by decide, by decide, by decide⟩

/-- Amended C7: in every completed collector run whose ballot and share lists
are nonempty, `ballotAggregate` and `ownShareAggregate` are each written
exactly twice — once after the accept phase closes and once more when the peer
aggregate frame is handled — and the second computation overwrites each field
with the same value, the componentwise sum of the (unchanged) list. -/
theorem aggregates_recomputed (s : CollectorState) (data : List Char) (p : Int × Int)
    (hpre : aggregateTag.isPrefixOf data = true)
    (hparse : parse_aggregate data = some p)
    (hballots : s.received_ballots.isEmpty = false)
    (hshares : s.random_shares.isEmpty = false) :
    (collector_run s data).2.count RunEvent.write_ballot_aggregate = 2 ∧
    (collector_run s data).2.count RunEvent.write_share_aggregate = 2 ∧
    (collector_run s data).1.secret_ballot_aggregate = sumPairs s.received_ballots ∧
    (collector_run s data).1.random_share_aggregate = sumPairs s.random_shares := by
  simp [collector_run, compute_aggregates_traced, handle_peer_message_traced,
    hpre, hparse, compute_aggregates, hballots, hshares,
    List.count_cons, List.count_append]

/-- Witness for the amended C7, at the run of the counterexample. -/
theorem aggregates_recomputed_witness :
    ((collector_run ⟨[(5, 6)], [(1, 1)], (0, 0), (0, 0), (0, 0), [], 2, ["R", "D"]⟩
        ("AGGREGATE,1,2".data)).2.count RunEvent.write_ballot_aggregate = 2) ∧
    ((collector_run ⟨[(5, 6)], [(1, 1)], (0, 0), (0, 0), (0, 0), [], 2, ["R", "D"]⟩
        ("AGGREGATE,1,2".data)).2.count RunEvent.write_share_aggregate = 2) ∧
    ((collector_run ⟨[(5, 6)], [(1, 1)], (0, 0), (0, 0), (0, 0), [], 2, ["R", "D"]⟩
        ("AGGREGATE,1,2".data)).1.secret_ballot_aggregate = sumPairs [(5, 6)]) ∧
    ((collector_run ⟨[(5, 6)], [(1, 1)], (0, 0), (0, 0), (0, 0), [], 2, ["R", "D"]⟩
        ("AGGREGATE,1,2".data)).1.random_share_aggregate = sumPairs [(1, 1)]) :=
  aggregates_recomputed ⟨[(5, 6)], [(1, 1)], (0, 0), (0, 0), (0, 0), [], 2, ["R", "D"]⟩
    ("AGGREGATE,1,2".data) (1, 2) (by decide) (by decide) (by decide) (by decide)

/-! ### Claim C10 (corrected): content-only dispatch, with parse caveats -/

/-- Counterexample for C10 as stated: the message `"AGGREGATE"` (no commas)
starts with `AGGREGATE` and is routed to the peer handler, but — contrary to
the claim that any such message sets `peerShareAggregate`, recomputes the
aggregates and runs the tally — the `ValueError` from unpacking leaves the
state unchanged and produces no tally output. -/
theorem content_dispatch_cex :
    aggregateTag.isPrefixOf ("AGGREGATE".data) = true ∧
    (handle_voter ⟨[(5, 6)], [], (0, 0), (0, 0), (0, 0), [], 2, ["R", "D"]⟩
        ("AGGREGATE".data) (0, 0)).tally_output = none ∧
    (handle_voter ⟨[(5, 6)], [], (0, 0), (0, 0), (0, 0), [], 2, ["R", "D"]⟩
        ("AGGREGATE".data) (0, 0)).state
      = ⟨[(5, 6)], [], (0, 0), (0, 0), (0, 0), [], 2, ["R", "D"]⟩ := by
  refine ⟨by decide, by decide, by decide⟩

/-- Amended C10: inbound messages are classified purely by content — the same
dispatcher `handle_voter` serves the voter-facing and the peer-facing endpoint
— as follows: a message starting with `"AGGREGATE"` goes to the peer handler,
and if it moreover parses as `AGGREGATE,v1,v2` under Python `int()` (which
accepts surrounding whitespace and underscore grouping, so `"AGGREGATE, 1,2"`
does parse and tally) it sets `peerShareAggregate`, recomputes the aggregates
and runs the full tally decode, while an ASCII `AGGREGATE` frame that fails
that parse changes nothing; any other message containing a comma is treated as
a secret ballot (appended and acknowledged exactly when it parses as two
integers); any other message is treated as a share request.  The parse-failure
branch is stated for ASCII frames, where `pyInt` is exactly Python `int()`. -/
theorem content_dispatch (s : CollectorState) (data : List Char) (r : Int × Int) :
    (aggregateTag.isPrefixOf data = true →
      handle_voter s data r = handle_peer_message s data ∧
      (∀ p, parse_aggregate data = some p →
        handle_voter s data r =
          ⟨compute_aggregates { s with peer_random_share_aggregate := p }, none,
           some (tally_votes s.total_voters s.candidates
             (final_result (compute_aggregates
               { s with peer_random_share_aggregate := p })))⟩) ∧
      ((∀ c ∈ data, c.toNat < 128) → parse_aggregate data = none →
        handle_voter s data r = ⟨s, none, none⟩)) ∧
    (aggregateTag.isPrefixOf data = false →
      handle_voter s data r = handle_voter_message s data r ∧
      (data.contains ',' = true →
        ∀ n, parse_ballot data = some n →
          handle_voter s data r =
            ⟨{ s with received_ballots := s.received_ballots ++ [n] },
             some ackMessage, none⟩) ∧
      (data.contains ',' = false →
        ∀ vid ls, pyInt data = some vid →
          pyIndex s.location_shares (vid - 1) = some ls →
          handle_voter s data r =
            ⟨{ s with random_shares := s.random_shares ++ [r] },
             some (intToChars ls ++ ',' :: intToChars r.1 ++ ',' :: intToChars r.2),
             none⟩)) := by
  constructor
  · intro hpre
    refine ⟨by simp [handle_voter, hpre], ?_, ?_⟩
    · intro p hp
      simp [handle_voter, handle_peer_message, hpre, hp, compute_aggregates]
    · intro _ hp
      simp [handle_voter, handle_peer_message, hpre, hp]
  · intro hpre
    refine ⟨by simp [handle_voter, hpre], ?_, ?_⟩
    · intro hc n hn
      have hc' : ',' ∈ data := by simpa using hc
      simp [handle_voter, handle_voter_message, hpre, hc', hn]
    · intro hc vid ls hvid hls
      have hc' : ',' ∉ data := by simpa using hc
      simp [handle_voter, handle_voter_message, hpre, hc', hvid, hls]

/-- Witness for the amended C10: a well-formed `AGGREGATE,3,4` frame arriving
at the dispatcher (on whichever endpoint) is handled by the peer handler. -/
theorem content_dispatch_witness :
    handle_voter ⟨[(5, 6)], [], (0, 0), (0, 0), (0, 0), [], 2, ["R", "D"]⟩
        ("AGGREGATE,3,4".data) (0, 0)
      = handle_peer_message ⟨[(5, 6)], [], (0, 0), (0, 0), (0, 0), [], 2, ["R", "D"]⟩
          ("AGGREGATE,3,4".data) :=
  ((content_dispatch ⟨[(5, 6)], [], (0, 0), (0, 0), (0, 0), [], 2, ["R", "D"]⟩
      ("AGGREGATE,3,4".data) (0, 0)).1 (by decide)).1

/-! ### Helper lemmas: the location-share probe (claims C8 and C4) -/

theorem next_computed_share_eq (V cur : Nat) (h1 : 1 ≤ cur) (h2 : cur ≤ V) :
    next_computed_share V cur = cur % V + 1 := by
  unfold next_computed_share
  rcases eq_or_lt_of_le h2 with rfl | hlt
  · have hm : (cur + 1) % cur = 1 % cur := Nat.add_mod_left cur 1
    rw [hm, Nat.mod_self]
    rcases eq_or_lt_of_le h1 with h | h
    · rw [← h]
      rfl
    · rw [Nat.mod_eq_of_lt h, if_neg one_ne_zero]
  · have hcm : cur % V = cur := Nat.mod_eq_of_lt hlt
    rcases eq_or_lt_of_le (Nat.succ_le_of_lt hlt) with he | hlt2
    · have he' : cur + 1 = V := he
      rw [he', Nat.mod_self, if_pos rfl, hcm]
      omega
    · rw [Nat.mod_eq_of_lt hlt2, if_neg (by omega), hcm]

theorem next_computed_share_range (V cur : Nat) (hV : 1 ≤ V) (h1 : 1 ≤ cur) (h2 : cur ≤ V) :
    1 ≤ next_computed_share V cur ∧ next_computed_share V cur ≤ V := by
  rw [next_computed_share_eq V cur h1 h2]
  have := Nat.mod_lt cur hV
  omega

theorem next_computed_share_mod (V a : Nat) (hV : 1 ≤ V) :
    next_computed_share V (a % V + 1) = (a + 1) % V + 1 := by
  have hm := Nat.mod_lt a hV
  rw [next_computed_share_eq V (a % V + 1) (by omega) (by omega)]
  congr 1
  conv_rhs => rw [Nat.add_mod]
  rcases eq_or_lt_of_le hV with h | h
  · simp [← h]
  · rw [Nat.mod_eq_of_lt h]

theorem probe_loop_succeeds (V : Nat) (reg : List Nat) :
    ∀ fuel start, 1 ≤ start → start ≤ V →
      (∃ i < fuel, ((start - 1 + i) % V + 1) ∉ reg) →
      ∃ v, probe_loop V reg fuel start = some v ∧ v ∉ reg ∧ 1 ≤ v ∧ v ≤ V := by
  intro fuel
  induction fuel with
  | zero =>
    rintro start _ _ ⟨i, hi, _⟩
    omega
  | succ f ih =>
    rintro start h1 h2 ⟨i, hi, hfree⟩
    have hV : 1 ≤ V := by omega
    by_cases hs : start ∈ reg
    · have hstart0 : (start - 1 + 0) % V + 1 = start := by
        rw [Nat.add_zero, Nat.mod_eq_of_lt (by omega)]
        omega
      have hine : i ≠ 0 := by
        intro h
        rw [h, hstart0] at hfree
        exact hfree hs
      obtain ⟨k, rfl⟩ : ∃ k, i = k + 1 := ⟨i - 1, by omega⟩
      rw [probe_loop, if_pos hs]
      have hnext : next_computed_share V start = start % V + 1 := by
        rw [next_computed_share_eq V start h1 h2]
      have hrange := next_computed_share_range V start hV h1 h2
      apply ih (next_computed_share V start) hrange.1 hrange.2
      refine ⟨k, by omega, ?_⟩
      have hmod : (start % V + k) % V = (start + k) % V :=
        (Nat.mod_modEq start V).add_right k
      have hkey : (next_computed_share V start - 1 + k) % V + 1
          = (start - 1 + (k + 1)) % V + 1 := by
        rw [hnext]
        have h3 : start % V + 1 - 1 + k = start % V + k := by omega
        have h4 : start - 1 + (k + 1) = start + k := by omega
        rw [h3, h4, hmod]
      rw [hkey]
      exact hfree
    · rw [probe_loop, if_neg hs]
      exact ⟨start, rfl, hs, h1, h2⟩

theorem exists_free_probe (V : Nat) (reg : List Nat) (start : Nat)
    (hnd : reg.Nodup) (hlt : reg.length < V)
    (h1 : 1 ≤ start) (h2 : start ≤ V) :
    ∃ i < V, ((start - 1 + i) % V + 1) ∉ reg := by
  by_contra hcon
  push_neg at hcon
  have hmap : ((List.range V).map (fun i => (start - 1 + i) % V + 1)).Nodup := by
    refine List.Nodup.map_on ?_ (List.nodup_range V)
    intro x hx y hy hxy
    rw [List.mem_range] at hx hy
    have hmm : (start - 1 + x) % V = (start - 1 + y) % V := by omega
    have hcancel : x % V = y % V := Nat.ModEq.add_left_cancel' (start - 1) hmm
    rwa [Nat.mod_eq_of_lt hx, Nat.mod_eq_of_lt hy] at hcancel
  have hsubl : ((List.range V).map (fun i => (start - 1 + i) % V + 1)) ⊆ reg := by
    intro x hx
    rw [List.mem_map] at hx
    obtain ⟨i, hi, rfl⟩ := hx
    rw [List.mem_range] at hi
    exact hcon i hi
  have hle := (hmap.subperm hsubl).length_le
  simp only [List.length_map, List.length_range] at hle
  omega

/-- Claim C8: under the registry invariant (fewer than `voterCount` entries,
pairwise distinct, all in `[1, voterCount]`), the commit probe loop — increment
modulo `voterCount` with `0` mapped to `voterCount` — terminates within
`voterCount` probe steps (fuel `voterCount` suffices) for every proposed
starting value in `[1, voterCount]`, and the value found is fresh and in
range. -/
theorem probe_loop_terminates (V : Nat) (reg : List Nat) (proposed : Nat)
    (hnd : reg.Nodup) (hsub : ∀ x ∈ reg, 1 ≤ x ∧ x ≤ V) (hlen : reg.length < V)
    (h1 : 1 ≤ proposed) (h2 : proposed ≤ V) :
    ∃ v, probe_loop V reg V proposed = some v ∧ v ∉ reg ∧ 1 ≤ v ∧ v ≤ V :=
  probe_loop_succeeds V reg V proposed h1 h2
    (exists_free_probe V reg proposed hnd hlen h1 h2)

/-- Witness for C8: registry `[1, 3]` of 2 < 3 entries; probing from `3` wraps
and terminates. -/
theorem probe_loop_terminates_witness :
    ∃ v, probe_loop 3 [1, 3] 3 3 = some v ∧ v ∉ ([1, 3] : List Nat) ∧ 1 ≤ v ∧ v ≤ 3 :=
  probe_loop_terminates 3 [1, 3] 3 (by decide) (by decide) (by decide)
    (by decide) (by decide)

theorem run_commits_spec (V : Nat) :
    ∀ (props reg : List Nat), reg.Nodup → (∀ x ∈ reg, 1 ≤ x ∧ x ≤ V) →
      (∀ p ∈ props, 1 ≤ p ∧ p ≤ V) → reg.length + props.length ≤ V →
      ∃ reg', run_commits V reg props = some reg' ∧ reg'.Nodup ∧
        (∀ x ∈ reg', 1 ≤ x ∧ x ≤ V) ∧ reg'.length = reg.length + props.length := by
  intro props
  induction props with
  | nil =>
    intro reg hnd hsub _ _
    exact ⟨reg, rfl, hnd, hsub, by simp⟩
  | cons p ps ih =>
    intro reg hnd hsub hprops hcount
    obtain ⟨v, hv, hvnotin, hv1, hv2⟩ :=
      probe_loop_terminates V reg p hnd hsub (by simp at hcount; omega)
        (hprops p (by simp)).1 (hprops p (by simp)).2
    have hstep : run_commits V reg (p :: ps) = run_commits V (reg ++ [v]) ps := by
      rw [run_commits]
      unfold commit
      rw [hv]
      rfl
    have hnd' : (reg ++ [v]).Nodup := by
      simp [List.nodup_append, hnd, hvnotin]
    have hsub' : ∀ x ∈ reg ++ [v], 1 ≤ x ∧ x ≤ V := by
      intro x hx
      rcases List.mem_append.mp hx with hx | hx
      · exact hsub x hx
      · simp at hx
        omega
    obtain ⟨reg', hrun, hnd'', hsub'', hlen''⟩ :=
      ih (reg ++ [v]) hnd' hsub' (fun q hq => hprops q (by simp [hq]))
        (by simp at hcount ⊢; omega)
    exact ⟨reg', by rw [hstep, hrun], hnd'', hsub'', by simp at hlen'' ⊢; omega⟩

/-- Claim C4: for `N` voters committing arbitrary proposed values in `[1, N]`
(collisions allowed, any call order), every commit succeeds; after each commit
the registry holds pairwise distinct integers in `[1, N]`; and after all `N`
commits the registry is exactly a permutation of `{1, …, N}`. -/
theorem commits_yield_permutation (V : Nat) (proposals : List Nat)
    (hlen : proposals.length = V)
    (hrange : ∀ p ∈ proposals, 1 ≤ p ∧ p ≤ V) :
    (∀ k ≤ V, ∃ reg, run_commits V [] (proposals.take k) = some reg ∧
        reg.Nodup ∧ (∀ x ∈ reg, 1 ≤ x ∧ x ≤ V) ∧ reg.length = k) ∧
    ∃ reg, run_commits V [] proposals = some reg ∧ reg.Perm (List.range' 1 V) := by
  constructor
  · intro k hk
    obtain ⟨reg, hrun, hnd, hsub, hreg⟩ :=
      run_commits_spec V (proposals.take k) [] (by simp) (by simp)
        (fun p hp => hrange p (List.mem_of_mem_take hp))
        (by simp [List.length_take]; omega)
    refine ⟨reg, hrun, hnd, hsub, ?_⟩
    simp [List.length_take, hlen] at hreg
    omega
  · obtain ⟨reg, hrun, hnd, hsub, hreg⟩ :=
      run_commits_spec V proposals [] (by simp) (by simp) hrange (by simp [hlen])
    refine ⟨reg, hrun, ?_⟩
    have hsubl : reg ⊆ List.range' 1 V := by
      intro x hx
      rw [List.mem_range'_1]
      have := hsub x hx
      omega
    refine (hnd.subperm hsubl).perm_of_length_le ?_
    rw [List.length_range']
    simp at hreg
    omega

/-- Witness for C4: three voters all proposing `2`: the registry after all
commits is a permutation of `{1, 2, 3}`. -/
theorem commits_yield_permutation_witness :
    (∀ k ≤ 3, ∃ reg, run_commits 3 [] (([2, 2, 2] : List Nat).take k) = some reg ∧
        reg.Nodup ∧ (∀ x ∈ reg, 1 ≤ x ∧ x ≤ 3) ∧ reg.length = k) ∧
    ∃ reg, run_commits 3 [] [2, 2, 2] = some reg ∧ reg.Perm (List.range' 1 3) :=
  commits_yield_permutation 3 [2, 2, 2] (by decide) (by decide)

/-! ### Helper lemmas: binary rendering (claim C3) -/

theorem natBitsLEAux_getD :
    ∀ (fuel n j : Nat), n ≤ fuel → (natBitsLEAux fuel n).getD j false = n.testBit j := by
  intro fuel
  induction fuel with
  | zero =>
    intro n j h
    interval_cases n
    simp [natBitsLEAux]
  | succ f ih =>
    intro n j h
    rw [natBitsLEAux]
    by_cases h0 : n = 0
    · simp [h0]
    · rw [if_neg h0]
      cases j with
      | zero => simp [Nat.testBit_zero]
      | succ j =>
        have hle : n / 2 ≤ f := by omega
        simp only [List.getD_cons_succ]
        rw [ih (n / 2) j hle, Nat.testBit_add_one]

theorem natBitsLEAux_lt_two_pow :
    ∀ (fuel n : Nat), n ≤ fuel → n < 2 ^ (natBitsLEAux fuel n).length := by
  intro fuel
  induction fuel with
  | zero =>
    intro n h
    interval_cases n
    simp [natBitsLEAux]
  | succ f ih =>
    intro n h
    rw [natBitsLEAux]
    by_cases h0 : n = 0
    · simp [h0]
    · rw [if_neg h0]
      have hle : n / 2 ≤ f := by omega
      have := ih (n / 2) hle
      simp only [List.length_cons, pow_succ]
      omega

theorem natBitsLEAux_length_le :
    ∀ (fuel n L : Nat), n ≤ fuel → n < 2 ^ L → (natBitsLEAux fuel n).length ≤ L := by
  intro fuel
  induction fuel with
  | zero =>
    intro n L h _
    interval_cases n
    simp [natBitsLEAux]
  | succ f ih =>
    intro n L h hL
    rw [natBitsLEAux]
    by_cases h0 : n = 0
    · simp [h0]
    · rw [if_neg h0]
      have hL1 : 1 ≤ L := by
        by_contra hc
        interval_cases L
        omega
      have hdiv : n / 2 < 2 ^ (L - 1) := by
        have h2 : 2 ^ L = 2 ^ (L - 1) * 2 := by
          rw [← pow_succ]
          congr 1
          omega
        rw [Nat.div_lt_iff_lt_mul (by omega)]
        omega
      have := ih (n / 2) (L - 1) (by omega) hdiv
      simp only [List.length_cons]
      omega

theorem natBitsLE_getD (n j : Nat) : (natBitsLE n).getD j false = n.testBit j :=
  natBitsLEAux_getD n n j le_rfl

theorem natBitsLE_lt_two_pow (n : Nat) : n < 2 ^ (natBitsLE n).length :=
  natBitsLEAux_lt_two_pow n n le_rfl

theorem natBitsLE_length_le (n L : Nat) (h : n < 2 ^ L) : (natBitsLE n).length ≤ L :=
  natBitsLEAux_length_le n n L le_rfl h

theorem natBitsLE_append_replicate (n L : Nat) (h : n < 2 ^ L) :
    natBitsLE n ++ List.replicate (L - (natBitsLE n).length) false
      = (List.range L).map (fun j => n.testBit j) := by
  have hlen : (natBitsLE n).length ≤ L := natBitsLE_length_le n L h
  apply List.ext_getElem
  · simp [List.length_append, List.length_replicate, List.length_range]
    omega
  · intro j h1 h2
    simp only [List.length_range] at h2
    rw [List.getElem_map, List.getElem_range]
    rw [List.getElem_append]
    split
    · rename_i hj
      rw [← List.getD_eq_getElem _ false hj, natBitsLE_getD]
    · rename_i hj
      rw [List.getElem_replicate]
      have hbound : n < 2 ^ j := by
        calc n < 2 ^ (natBitsLE n).length := natBitsLE_lt_two_pow n
        _ ≤ 2 ^ j := Nat.pow_le_pow_right (by omega) (by omega)
      exact (Nat.testBit_lt_two_pow hbound).symm

theorem zfill_binChars_reverse (m L : Nat) (hL : 1 ≤ L) (hm : m < 2 ^ L) :
    (zfill L (binChars (m : Int))).reverse = (List.range L).map (fun j => m.testBit j) := by
  by_cases h0 : m = 0
  · subst h0
    have hb : binChars ((0 : Nat) : Int) = [false] := by decide
    rw [hb]
    apply List.ext_getElem
    · simp [zfill]
      omega
    · intro j h1' h2'
      simp only [List.length_range] at h2'
      rw [List.getElem_map, List.getElem_range, Nat.zero_testBit]
      rw [List.getElem_reverse]
      unfold zfill
      rw [List.getElem_append]
      split
      · rw [List.getElem_replicate]
      · rename_i hj2
        have : ∀ (i : Nat) (h : i < ([false] : List Bool).length),
            ([false] : List Bool)[i] = false := by decide
        exact this _ _
  · have hml : binChars ((m : Nat) : Int) = (natBitsLE m).reverse := by
      unfold binChars
      rw [if_neg (by omega), if_neg (by exact_mod_cast h0)]
      congr
    rw [hml]
    unfold zfill
    rw [List.length_reverse, List.reverse_append, List.reverse_replicate,
      List.reverse_reverse]
    exact natBitsLE_append_replicate m L hm

theorem reverse_range_map {α : Type} (L : Nat) (f : Nat → α) :
    ((List.range L).map f).reverse = (List.range L).map (fun j => f (L - 1 - j)) := by
  apply List.ext_getElem
  · simp
  · intro j h1 h2
    simp only [List.length_reverse, List.length_map, List.length_range] at h1 h2 ⊢
    rw [List.getElem_reverse]
    simp only [List.getElem_map, List.getElem_range, List.length_map, List.length_range]

theorem zfill_binChars_eq (m L : Nat) (hL : 1 ≤ L) (hm : m < 2 ^ L) :
    zfill L (binChars (m : Int)) = (List.range L).map (fun j => m.testBit (L - 1 - j)) := by
  have h := congrArg List.reverse (zfill_binChars_reverse m L hL hm)
  rw [List.reverse_reverse] at h
  rw [h, reverse_range_map]

/-! ### Helper lemmas: bits of a sum of distinct powers of two (claim C3) -/

theorem testBit_add_two_pow (p S : Nat) (hS : S.testBit p = false) (j : Nat) :
    (2 ^ p + S).testBit j = ((2 ^ p).testBit j || S.testBit j) := by
  rcases Nat.lt_trichotomy j p with hj | rfl | hj
  · rw [Nat.testBit_two_pow_add_gt hj]
    have : (2 ^ p).testBit j = false := by
      rw [Nat.testBit_two_pow]
      simp
      omega
    rw [this, Bool.false_or]
  · rw [Nat.testBit_two_pow_add_eq, hS, Nat.testBit_two_pow]
    simp
  · have h2p : (2 : Nat) ^ (p + 1) = 2 * 2 ^ p := by rw [pow_succ]; ring
    have hpos : 0 < (2 : Nat) ^ p := Nat.pos_pow_of_pos _ (by omega)
    have hpos1 : 0 < (2 : Nat) ^ (p + 1) := Nat.pos_pow_of_pos _ (by omega)
    have hlo2 : S % 2 ^ (p + 1) < 2 ^ (p + 1) := Nat.mod_lt _ hpos1
    have htb : (S % 2 ^ (p + 1)).testBit p = false := by
      rw [Nat.testBit_mod_two_pow]
      simp [hS]
    have hdiv2 : S % 2 ^ (p + 1) / 2 ^ p < 2 :=
      (Nat.div_lt_iff_lt_mul hpos).mpr (by omega)
    have htb' : ¬ (S % 2 ^ (p + 1) / 2 ^ p % 2 = 1) := by
      rw [Nat.testBit_to_div_mod] at htb
      simpa using htb
    have hd0 : S % 2 ^ (p + 1) / 2 ^ p = 0 := by
      interval_cases h : S % 2 ^ (p + 1) / 2 ^ p
      · rfl
      · exact absurd rfl htb'
    have hlo : S % 2 ^ (p + 1) < 2 ^ p := by
      rwa [Nat.div_eq_zero_iff hpos] at hd0
    have hSeq : 2 ^ (p + 1) * (S / 2 ^ (p + 1)) + S % 2 ^ (p + 1) = S :=
      Nat.div_add_mod S (2 ^ (p + 1))
    have hsum : 2 ^ p + S
        = 2 ^ (p + 1) * (S / 2 ^ (p + 1)) + (2 ^ p + S % 2 ^ (p + 1)) := by omega
    have hblt : 2 ^ p + S % 2 ^ (p + 1) < 2 ^ (p + 1) := by omega
    rw [hsum, Nat.testBit_mul_pow_two_add _ hblt, if_neg (by omega)]
    conv_rhs => rw [← hSeq]
    rw [Nat.testBit_mul_pow_two_add _ hlo2, if_neg (by omega)]
    have hp2 : (2 ^ p).testBit j = false := by
      rw [Nat.testBit_two_pow]
      simp
      omega
    rw [hp2, Bool.false_or]

theorem testBit_sum_distinct_pows (l : List Nat) (hl : l.Nodup) :
    ∀ j, ((l.map (fun p => 2 ^ p)).sum).testBit j = decide (j ∈ l) := by
  induction l with
  | nil => intro j; simp
  | cons p t ih =>
    rw [List.nodup_cons] at hl
    intro j
    have hrest : ((t.map (fun p => 2 ^ p)).sum).testBit p = false := by
      rw [ih hl.2 p]
      simp [hl.1]
    simp only [List.map_cons, List.sum_cons]
    rw [testBit_add_two_pow p _ hrest j, ih hl.2 j, Nat.testBit_two_pow]
    simp only [List.mem_cons]
    rcases Decidable.eq_or_ne j p with rfl | hne
    · simp
    · simp [hne, Ne.symm hne]

theorem sum_distinct_pows_lt (l : List Nat) (hl : l.Nodup) (L : Nat)
    (hmem : ∀ p ∈ l, p < L) :
    (l.map (fun p => 2 ^ p)).sum < 2 ^ L := by
  apply Nat.lt_pow_two_of_testBit
  intro i hi
  rw [testBit_sum_distinct_pows l hl i]
  simp only [decide_eq_false_iff_not]
  intro hmemi
  exact absurd (hmem i hmemi) (by omega)

/-! ### Helper lemmas: chunking and counting in `tally_votes` (claim C3) -/

theorem pyRangeStep_mul (V C : Nat) (hC : 0 < C) :
    pyRangeStep (V * C) C = (List.range V).map (· * C) := by
  unfold pyRangeStep
  have h1 : V * C + C - 1 = (C - 1) + V * C := by omega
  rw [h1, Nat.add_mul_div_right _ _ hC, Nat.div_eq_of_lt (by omega), Nat.zero_add]

theorem split_getD (V C : Nat) (g : Nat → Bool) (k idx : Nat) (hk : k < V) (hidx : idx < C) :
    ((((List.range (V * C)).map g).drop (k * C)).take C).getD idx false
      = g (k * C + idx) := by
  have hkC : k * C + C ≤ V * C := by
    have := Nat.mul_le_mul_right C (show k + 1 ≤ V by omega)
    rw [add_one_mul] at this
    omega
  have hlen : idx < ((((List.range (V * C)).map g).drop (k * C)).take C).length := by
    simp only [List.length_take, List.length_drop, List.length_map, List.length_range]
    omega
  rw [List.getD_eq_getElem _ _ hlen, List.getElem_take, List.getElem_drop,
    List.getElem_map, List.getElem_range]

theorem counts_chunks (V C : Nat) (hC : 0 < C) (g : Nat → Bool) (idx : Nat) (hidx : idx < C) :
    (vote_splits C (V * C) ((List.range (V * C)).map g)).countP (fun s => s.getD idx false)
      = (List.range V).countP (fun k => g (k * C + idx)) := by
  unfold vote_splits
  rw [pyRangeStep_mul V C hC, List.map_map, List.countP_map]
  apply List.countP_congr
  intro k hk
  rw [List.mem_range] at hk
  simp only [Function.comp_apply]
  rw [split_getD V C g k idx hk hidx]

theorem countP_range_eq_countP_positions (V C idx : Nat) (positions : List Nat)
    (hnd : positions.Nodup) (hmem : ∀ p ∈ positions, p < V * C)
    (hC : 0 < C) (hidx : idx < C) :
    (List.range V).countP (fun k => decide ((k * C + idx) ∈ positions))
      = positions.countP (fun p => decide (p % C = idx)) := by
  classical
  rw [List.countP_eq_length_filter, List.countP_eq_length_filter]
  have hnr : ((List.range V).filter (fun k => decide ((k * C + idx) ∈ positions))).Nodup :=
    (List.nodup_range V).filter _
  have hnp : (positions.filter (fun p => decide (p % C = idx))).Nodup := hnd.filter _
  have hfr : (List.range V).toFinset = Finset.range V := by
    ext x
    simp [List.mem_toFinset, List.mem_range, Finset.mem_range]
  rw [← List.toFinset_card_of_nodup hnr, ← List.toFinset_card_of_nodup hnp,
    List.toFinset_filter, List.toFinset_filter, hfr]
  apply Finset.card_bij (fun k _ => k * C + idx)
  · intro k hk
    simp only [Finset.mem_filter, Finset.mem_range] at hk
    simp only [Finset.mem_filter, List.mem_toFinset]
    have hmemk : k * C + idx ∈ positions := by
      have := hk.2
      simpa using this
    refine ⟨hmemk, ?_⟩
    simp only [decide_eq_true_eq]
    rw [Nat.mul_comm k C, Nat.mul_add_mod, Nat.mod_eq_of_lt hidx]
  · intro k1 hk1 k2 hk2 heq
    have : k1 * C = k2 * C := by omega
    exact Nat.eq_of_mul_eq_mul_right hC this
  · intro p hp
    simp only [Finset.mem_filter, List.mem_toFinset] at hp
    have hpmod : p % C = idx := by
      have := hp.2
      simpa using this
    have hplt := hmem p hp.1
    have hdm : p / C * C + p % C = p := by
      rw [Nat.mul_comm]
      exact Nat.div_add_mod p C
    refine ⟨p / C, ?_, ?_⟩
    · simp only [Finset.mem_filter, Finset.mem_range]
      have hdiv : p / C < V := by
        rw [Nat.div_lt_iff_lt_mul hC]
        omega
      have heq : p / C * C + idx = p := by omega
      refine ⟨hdiv, ?_⟩
      simp [heq, hp.1]
    · omega

theorem tallyComponent_eq_counts (V : Nat) (cands : List String) (i : Nat) (m : Int)
    (g : Nat → Bool) (hC : 0 < cands.length)
    (hor : (if i = 0 then (zfill (V * cands.length) (binChars m)).reverse
            else zfill (V * cands.length) (binChars m))
           = (List.range (V * cands.length)).map g) :
    tallyComponent V cands i m
      = (List.range cands.length).map
          (fun idx => (List.range V).countP (fun k => g (k * cands.length + idx))) := by
  simp only [tallyComponent]
  rw [hor]
  apply List.map_congr_left
  intro idx hidx
  rw [List.mem_range] at hidx
  exact counts_chunks V cands.length hC g idx hidx

theorem counts_positions_eq (V C : Nat) (hC : 0 < C) (positions : List Nat)
    (hnd : positions.Nodup) (hmem : ∀ p ∈ positions, p < V * C) (g : Nat → Bool)
    (hg : ∀ x, x < V * C → g x = decide (x ∈ positions)) :
    (List.range C).map (fun idx => (List.range V).countP (fun k => g (k * C + idx)))
      = (List.range C).map (fun idx => positions.countP (fun p => decide (p % C = idx))) := by
  apply List.map_congr_left
  intro idx hidx
  rw [List.mem_range] at hidx
  have h1 : (List.range V).countP (fun k => g (k * C + idx))
      = (List.range V).countP (fun k => decide ((k * C + idx) ∈ positions)) := by
    apply List.countP_congr
    intro k hk
    rw [List.mem_range] at hk
    have hb : k * C + idx < V * C := by
      have := Nat.mul_le_mul_right C (show k + 1 ≤ V by omega)
      rw [add_one_mul] at this
      omega
    rw [hg (k * C + idx) hb]
  rw [h1, countP_range_eq_countP_positions V C idx positions hnd hmem hC hidx]

theorem countP_positions_choices (C : Nat) (voters : List (Nat × Nat))
    (hv : ∀ w ∈ voters, w.2 < C) (idx : Nat) :
    (voters.map (fun w => (w.1 - 1) * C + w.2)).countP (fun p => decide (p % C = idx))
      = voters.countP (fun w => decide (w.2 = idx)) := by
  rw [List.countP_map]
  apply List.countP_congr
  intro w hw
  simp only [Function.comp_apply, decide_eq_decide]
  rw [Nat.mul_comm, Nat.mul_add_mod, Nat.mod_eq_of_lt (hv w hw)]

/-- Claim C3: for any set of voters with pairwise distinct one-hot positions
`pos = (L-1)·C + c` in `[0, N)` (`N = voterCount · C`), the tally decode run on
the pair `(Σ 2^pos, Σ 2^(N-1-pos))` — binary rendering zero-padded to length
`N`, string reversed for the first component only, chunked into `C`-sized
pieces, counting per intra-chunk offset, offsets mapped to candidates in list
order — yields for both components the true per-candidate vote counts, and the
two decoded count vectors are equal. -/
theorem tally_decode_correct (V : Nat) (cands : List String) (voters : List (Nat × Nat))
    (hcne : cands ≠ [])
    (hv : ∀ w ∈ voters, 1 ≤ w.1 ∧ w.1 ≤ V ∧ w.2 < cands.length)
    (hnd : (voters.map (fun w => (w.1 - 1) * cands.length + w.2)).Nodup) :
    tally_votes V cands
        [(((voters.map (fun w => 2 ^ ((w.1 - 1) * cands.length + w.2))).sum : Nat) : Int),
         (((voters.map (fun w => 2 ^ (V * cands.length - 1 -
              ((w.1 - 1) * cands.length + w.2)))).sum : Nat) : Int)]
      = [(List.range cands.length).map (fun idx => voters.countP (fun w => decide (w.2 = idx))),
         (List.range cands.length).map
           (fun idx => voters.countP (fun w => decide (w.2 = idx)))] := by
  have hC : 0 < cands.length := List.length_pos.mpr hcne
  have htv : ∀ (a b : Int), tally_votes V cands [a, b]
      = [tallyComponent V cands 0 a, tallyComponent V cands 1 b] := by
    intro a b
    rfl
  rw [htv]
  by_cases hV0 : V = 0
  · -- no voters are possible; both components decode over zero chunks
    have hve : voters = [] := by
      cases voters with
      | nil => rfl
      | cons w ws =>
        have := hv w (by simp)
        omega
    subst hve
    subst hV0
    have hpy : pyRangeStep (0 * cands.length) cands.length = [] := by
      unfold pyRangeStep
      rw [Nat.div_eq_of_lt (by omega)]
      simp
    have hcomp : ∀ (i : Nat) (m : Int), tallyComponent 0 cands i m
        = (List.range cands.length).map (fun _ => 0) := by
      intro i m
      simp only [tallyComponent, vote_splits, hpy, List.map_nil, List.countP_nil]
    simp [hcomp]
  · -- at least one location exists; the bit-level pipeline applies
    have hL1 : 1 ≤ V * cands.length := by
      have := Nat.mul_pos (by omega : 0 < V) hC
      omega
    set positions := voters.map (fun w => (w.1 - 1) * cands.length + w.2) with hposdef
    have hposmem : ∀ p ∈ positions, p < V * cands.length := by
      intro p hp
      rw [hposdef, List.mem_map] at hp
      obtain ⟨w, hw, rfl⟩ := hp
      obtain ⟨h1, h2, h3⟩ := hv w hw
      have hm1 : (w.1 - 1) * cands.length ≤ (V - 1) * cands.length :=
        Nat.mul_le_mul_right _ (by omega)
      have hm2 : (V - 1) * cands.length + cands.length = V * cands.length := by
        rw [Nat.sub_one_mul]
        have : cands.length ≤ V * cands.length := Nat.le_mul_of_pos_left _ (by omega)
        omega
      omega
    have hm0 : (voters.map (fun w => 2 ^ ((w.1 - 1) * cands.length + w.2))).sum
        = (positions.map (fun p => 2 ^ p)).sum := by
      rw [hposdef, List.map_map]
      rfl
    have hm1 : (voters.map (fun w => 2 ^ (V * cands.length - 1 -
          ((w.1 - 1) * cands.length + w.2)))).sum
        = ((positions.map (fun p => V * cands.length - 1 - p)).map (fun p => 2 ^ p)).sum := by
      rw [hposdef, List.map_map, List.map_map]
      rfl
    rw [hm0, hm1]
    set mpos := positions.map (fun p => V * cands.length - 1 - p) with hmposdef
    have hndm : mpos.Nodup := by
      rw [hmposdef]
      refine List.Nodup.map_on ?_ hnd
      intro x hx y hy hxy
      have hx' := hposmem x hx
      have hy' := hposmem y hy
      omega
    have hmmem : ∀ p ∈ mpos, p < V * cands.length := by
      intro p hp
      rw [hmposdef, List.mem_map] at hp
      obtain ⟨q, hq, rfl⟩ := hp
      omega
    have hm0lt : (positions.map (fun p => 2 ^ p)).sum < 2 ^ (V * cands.length) :=
      sum_distinct_pows_lt _ hnd _ hposmem
    have hm1lt : (mpos.map (fun p => 2 ^ p)).sum < 2 ^ (V * cands.length) :=
      sum_distinct_pows_lt _ hndm _ hmmem
    have hor0 : (zfill (V * cands.length)
          (binChars ((((positions.map (fun p => 2 ^ p)).sum : Nat)) : Int))).reverse
        = (List.range (V * cands.length)).map (fun j => decide (j ∈ positions)) := by
      rw [zfill_binChars_reverse _ _ hL1 hm0lt]
      apply List.map_congr_left
      intro j _
      rw [testBit_sum_distinct_pows _ hnd j]
    have hor1 : zfill (V * cands.length)
          (binChars ((((mpos.map (fun p => 2 ^ p)).sum : Nat)) : Int))
        = (List.range (V * cands.length)).map
            (fun j => ((mpos.map (fun p => 2 ^ p)).sum).testBit (V * cands.length - 1 - j)) :=
      zfill_binChars_eq _ _ hL1 hm1lt
    have hg1 : ∀ x, x < V * cands.length →
        ((mpos.map (fun p => 2 ^ p)).sum).testBit (V * cands.length - 1 - x)
          = decide (x ∈ positions) := by
      intro x hx
      rw [testBit_sum_distinct_pows _ hndm (V * cands.length - 1 - x), decide_eq_decide,
        hmposdef]
      constructor
      · intro hmem'
        rw [List.mem_map] at hmem'
        obtain ⟨q, hq, hqe⟩ := hmem'
        have hq' := hposmem q hq
        have hqx : q = x := by omega
        rwa [← hqx]
      · intro hmem'
        rw [List.mem_map]
        exact ⟨x, hmem', rfl⟩
    have hc0 : tallyComponent V cands 0 ((((positions.map (fun p => 2 ^ p)).sum : Nat)) : Int)
        = (List.range cands.length).map
            (fun idx => voters.countP (fun w => decide (w.2 = idx))) := by
      rw [tallyComponent_eq_counts V cands 0 _ (fun j => decide (j ∈ positions)) hC
          (by rw [if_pos rfl]; exact hor0)]
      rw [counts_positions_eq V cands.length hC positions hnd hposmem _ (fun x _ => rfl)]
      rw [hposdef]
      apply List.map_congr_left
      intro idx _
      exact countP_positions_choices cands.length voters (fun w hw => (hv w hw).2.2) idx
    have hc1 : tallyComponent V cands 1 ((((mpos.map (fun p => 2 ^ p)).sum : Nat)) : Int)
        = (List.range cands.length).map
            (fun idx => voters.countP (fun w => decide (w.2 = idx))) := by
      rw [tallyComponent_eq_counts V cands 1 _
          (fun j => ((mpos.map (fun p => 2 ^ p)).sum).testBit (V * cands.length - 1 - j)) hC
          (by rw [if_neg (by omega)]; exact hor1)]
      rw [counts_positions_eq V cands.length hC positions hnd hposmem _ hg1]
      rw [hposdef]
      apply List.map_congr_left
      intro idx _
      exact countP_positions_choices cands.length voters (fun w hw => (hv w hw).2.2) idx
    rw [hc0, hc1]

/-- Witness for C3 at the spec's own example: two voters and candidates
`["R", "D"]`, voter 1 choosing `R` at location 1 (position 0) and voter 2
choosing `D` at location 2 (position 3): the aggregate pair is `(9, 9)` and
both components decode to counts `R = 1, D = 1`. -/
theorem tally_decode_correct_witness :
    tally_votes 2 ["R", "D"] [9, 9] = [[1, 1], [1, 1]] := by
  have h := tally_decode_correct 2 ["R", "D"] [(1, 0), (2, 1)]
    (by decide) (by decide) (by decide)
  exact h

end SecureEVoting
